import Mathlib

/-!
Verification of the speech-interruption classifier implemented in
`livekit-agents/livekit/agents/voice/interrupt_config.py`, together with a
spec-level model of the verdict-valued Word-Set Classifier and of the
Interruption Arbiter (design spec sections 4.2 and 4.3), whose
implementations live in the external livekit session runtime.

Python strings are modelled as `List Char`; the Python text operations used
by the source (`str.lower`, `str.strip`, `str.replace(c, "")`, `str.split()`
and substring membership `in`) are embedded as executable functions below.
-/

/-- ASCII lowercasing of one character, as Python `str.lower` acts on the
ASCII range (every configured word in the source is ASCII). -/
def lowerChar (c : Char) : Char :=
  if 65 ≤ c.toNat ∧ c.toNat ≤ 90 then Char.ofNat (c.toNat + 32) else c

/-- ASCII whitespace as recognised by Python `str.split()` and `str.strip()`. -/
def isWS (c : Char) : Bool :=
  c == ' ' || c == '\t' || c == '\n' || c == '\r' || c == '\x0b' || c == '\x0c'

/-- Punctuation removed by the source on line 44: comma, period, exclamation
mark and question mark. -/
def isPunct (c : Char) : Bool :=
  c == ',' || c == '.' || c == '!' || c == '?'

/-- Python `str.strip()`: drop whitespace from both ends. -/
def strip (l : List Char) : List Char :=
  ((l.dropWhile isWS).reverse.dropWhile isWS).reverse

/-- Python `str.replace(ch, "")`: delete every occurrence of `ch`. -/
def pyRemove (ch : Char) (l : List Char) : List Char :=
  l.filter (fun c => !(c == ch))

/-- Chained punctuation removal exactly as written on line 44 of the source:
`.replace(',', '').replace('.', '').replace('!', '').replace('?', '')`. -/
def removePunct (l : List Char) : List Char :=
  pyRemove '?' (pyRemove '!' (pyRemove '.' (pyRemove ',' l)))

/-- One step of whitespace splitting, folded from the right. -/
def splitStep (c : Char) (acc : List (List Char)) : List (List Char) :=
  if isWS c then [] :: acc
  else
    match acc with
    | [] => [[c]]
    | w :: ws => (c :: w) :: ws

/-- Python `str.split()` with no argument: split on whitespace runs and
discard empty pieces. -/
def splitWS (l : List Char) : List (List Char) :=
  (l.foldr splitStep []).filter (fun w => !w.isEmpty)

/-- Boolean test that `p` starts `l` (character lists). -/
def isPre : List Char → List Char → Bool
  | [], _ => true
  | _ :: _, [] => false
  | a :: p, b :: l => a == b && isPre p l

/-- Python substring membership `p in l`. -/
def containsSub (p : List Char) : List Char → Bool
  | [] => p.isEmpty
  | b :: l => isPre p (b :: l) || containsSub p l

/-- Python set membership `w in S`, with the set modelled as a list. -/
def memB (w : List Char) (S : List (List Char)) : Bool :=
  S.any (fun x => x == w)

/-- Occurrence of `p` as a contiguous substring of `l`. -/
def Substr (p l : List Char) : Prop :=
  ∃ u v, l = u ++ p ++ v

/-- BACKCHANNEL_WORDS from the source, lines 7 to 11. -/
def BACKCHANNEL_WORDS : List (List Char) :=
  ["yeah".toList, "ok".toList, "okay".toList, "hmm".toList, "right".toList,
   "uh-huh".toList, "aha".toList, "mhm".toList, "gotcha".toList,
   "understood".toList, "yep".toList, "sure".toList, "alright".toList,
   "yup".toList, "uh".toList, "mhmm".toList]

/-- COMMAND_WORDS from the source, lines 14 to 17. -/
def COMMAND_WORDS : List (List Char) :=
  ["wait".toList, "stop".toList, "no".toList, "hold".toList, "but".toList,
   "however".toList, "actually".toList, "listen".toList, "hang".toList]

/-- Shallow embedding of `is_backchannel_only` (source lines 20 to 52).
The Python `for cmd in COMMAND_WORDS: if cmd in text_lower: return False`
loop is the `any` over a substring test; its result does not depend on the
iteration order of the set. -/
def is_backchannel_only (text : List Char) : Bool :=
  if text.isEmpty then false
  else
    let text_lower := strip (text.map lowerChar)
    if COMMAND_WORDS.any (fun cmd => containsSub cmd text_lower) then false
    else
      let words := splitWS (removePunct text_lower)
      if words.isEmpty then false
      else words.all (fun w => memB w BACKCHANNEL_WORDS)

/-- The same classifier with the two word sets taken as parameters, to state
that the verdict is a function of `(text, backchannel set, command set)`. -/
def is_backchannel_only_with (B C : List (List Char)) (text : List Char) : Bool :=
  if text.isEmpty then false
  else
    let text_lower := strip (text.map lowerChar)
    if C.any (fun cmd => containsSub cmd text_lower) then false
    else
      let words := splitWS (removePunct text_lower)
      if words.isEmpty then false
      else words.all (fun w => memB w B)

/-- Diagnostic records emitted by the two debug prints of the source
(lines 31 and 51). -/
inductive DebugRec
  | call (text : List Char)
  | verdict (words : List (List Char)) (result : Bool)
deriving DecidableEq

/-- State-passing embedding of `is_backchannel_only` with its debug prints
made explicit: the state is the stream of diagnostic records, appended in
order; the classifier has no other effect. -/
def is_backchannel_only_st (log : List DebugRec) (text : List Char) :
    Bool × List DebugRec :=
  let log₁ := log ++ [DebugRec.call text]
  if text.isEmpty then (false, log₁)
  else
    let text_lower := strip (text.map lowerChar)
    if COMMAND_WORDS.any (fun cmd => containsSub cmd text_lower) then (false, log₁)
    else
      let words := splitWS (removePunct text_lower)
      if words.isEmpty then (false, log₁)
      else
        let result := words.all (fun w => memB w BACKCHANNEL_WORDS)
        (result, log₁ ++ [DebugRec.verdict words result])

/-- Tokens computed by the source on lines 36 and 44: lowercase, strip both
ends, delete the four punctuation marks, split on whitespace. -/
def normalizeText (text : List Char) : List (List Char) :=
  splitWS (removePunct (strip (text.map lowerChar)))

/-- Verdicts of the spec's Word-Set Classifier (spec section 3). -/
inductive ClassificationVerdict
  | Empty
  | BackchannelOnly
  | ContainsCommand
  | Mixed
deriving DecidableEq

/-- Modelled from the spec: the verdict-valued Word-Set Classifier of spec
section 4.2. The repository sources only contain the boolean
`is_backchannel_only`; the four-way verdict consumed by the arbiter lives in
the external livekit runtime, so it is transcribed from the spec's bullet
list: empty input is `Empty`, any command token gives `ContainsCommand`,
unanimous backchannel membership gives `BackchannelOnly`, and everything
else (including zero matching tokens) is `Mixed`. -/
def classify (tokens B C : List (List Char)) : ClassificationVerdict :=
  if tokens.isEmpty then ClassificationVerdict.Empty
  else if tokens.any (fun t => memB t C) then ClassificationVerdict.ContainsCommand
  else if tokens.all (fun t => memB t B) then ClassificationVerdict.BackchannelOnly
  else ClassificationVerdict.Mixed

/-- Arbiter states of spec section 3; `PendingResume` records the generation
of the resume timer started on entry. -/
inductive ArbState
  | Idle
  | AgentSpeaking
  | Interrupted
  | PendingResume (gen : Nat)
deriving DecidableEq

/-- Commands the arbiter issues to the agent session (spec section 6). -/
inductive ArbCmd
  | interrupt
  | resume
  | suppressed
deriving DecidableEq

/-- Events consumed by the arbiter (spec section 6); `timerFire` carries the
generation of the resume timer that fired. -/
inductive ArbEvent
  | playbackStarted
  | playbackFinished
  | utterance (text : List Char)
  | revisedToNonActionable
  | timerFire (gen : Nat)
  | sessionTeardown
deriving DecidableEq

/-- Arbiter configuration (spec section 6). -/
structure ArbConfig where
  backchannel : List (List Char)
  command : List (List Char)
  resumeTimeout : ℚ
deriving DecidableEq

/-- Modelled from the spec: default configuration.  The resume timeout 1.0
is the value `false_interruption_timeout=1.0` configured in
`examples/voice_agents/basic_agent.py`; the word sets are the module-level
sets of `interrupt_config.py`. -/
def defaultArbConfig : ArbConfig :=
  { backchannel := BACKCHANNEL_WORDS
    command := COMMAND_WORDS
    resumeTimeout := 1 }

/-- Arbiter instance state: the control state plus the resume-timer
generation counter. -/
structure Arb where
  st : ArbState
  gen : Nat
deriving DecidableEq

/-- Modelled from the spec: one step of the Interruption Arbiter state
machine of spec section 4.3, which is implemented inside the external
livekit session runtime (only its configuration appears in
`basic_agent.py`).  It returns the next state and the commands issued.
An utterance classified `Empty` is no interruption signal and leaves the
state unchanged; a `timerFire` whose generation does not match the pending
one is stale and silently discarded. -/
def arbStep (cfg : ArbConfig) (a : Arb) (e : ArbEvent) : Arb × List ArbCmd :=
  match a.st, e with
  | ArbState.Idle, ArbEvent.playbackStarted =>
      (⟨ArbState.AgentSpeaking, a.gen⟩, [])
  | ArbState.AgentSpeaking, ArbEvent.playbackFinished =>
      (⟨ArbState.Idle, a.gen⟩, [])
  | ArbState.AgentSpeaking, ArbEvent.utterance txt =>
      match classify (normalizeText txt) cfg.backchannel cfg.command with
      | ClassificationVerdict.Empty => (a, [])
      | ClassificationVerdict.BackchannelOnly => (a, [ArbCmd.suppressed])
      | _ => (⟨ArbState.Interrupted, a.gen⟩, [ArbCmd.interrupt])
  | ArbState.Interrupted, ArbEvent.revisedToNonActionable =>
      (⟨ArbState.PendingResume (a.gen + 1), a.gen + 1⟩, [])
  | ArbState.PendingResume _, ArbEvent.utterance txt =>
      if (normalizeText txt).isEmpty then (a, [])
      else (⟨ArbState.Interrupted, a.gen⟩, [])
  | ArbState.PendingResume g, ArbEvent.timerFire g' =>
      if g' == g then (⟨ArbState.AgentSpeaking, a.gen⟩, [ArbCmd.resume])
      else (a, [])
  | _, ArbEvent.sessionTeardown =>
      (⟨ArbState.Idle, a.gen⟩, [])
  | _, _ => (a, [])

/-- Run the arbiter over a serialized event stream, collecting the commands
issued, in order. -/
def arbRun (cfg : ArbConfig) (a : Arb) : List ArbEvent → Arb × List ArbCmd
  | [] => (a, [])
  | e :: es =>
      let r := arbStep cfg a e
      let r' := arbRun cfg r.1 es
      (r'.1, r.2 ++ r'.2)

/-! ### Basic lemmas about the embedded text operations -/

lemma memB_iff (w : List Char) (S : List (List Char)) : memB w S = true ↔ w ∈ S := by
  unfold memB
  rw [List.any_eq_true]
  constructor
  · rintro ⟨x, hx, hxe⟩
    rw [beq_iff_eq] at hxe
    exact hxe ▸ hx
  · intro h
    exact ⟨w, h, beq_iff_eq.mpr rfl⟩

lemma isPre_iff : ∀ (p l : List Char), isPre p l = true ↔ ∃ v, l = p ++ v := by
  intro p
  induction p with
  | nil => intro l; simp [isPre]
  | cons a p ih =>
    intro l
    cases l with
    | nil => simp [isPre]
    | cons b l' =>
      simp only [isPre, Bool.and_eq_true, beq_iff_eq, ih, List.cons_append,
        List.cons.injEq]
      constructor
      · rintro ⟨rfl, v, rfl⟩
        exact ⟨v, rfl, rfl⟩
      · rintro ⟨v, hb, hl⟩
        exact ⟨hb.symm, v, hl⟩

lemma substr_cons_of {p l : List Char} (b : Char) (h : Substr p l) :
    Substr p (b :: l) := by
  rcases h with ⟨u, v, rfl⟩
  exact ⟨b :: u, v, rfl⟩

lemma substr_cons_iff (p : List Char) (b : Char) (l : List Char) :
    Substr p (b :: l) ↔ (∃ v, b :: l = p ++ v) ∨ Substr p l := by
  constructor
  · rintro ⟨u, v, huv⟩
    cases u with
    | nil => exact Or.inl ⟨v, by simpa using huv⟩
    | cons c u' =>
      rw [List.cons_append, List.cons_append] at huv
      injection huv with h1 h2
      exact Or.inr ⟨u', v, h2⟩
  · rintro (⟨v, hv⟩ | hs)
    · exact ⟨[], v, by simpa using hv⟩
    · exact substr_cons_of b hs

lemma containsSub_iff : ∀ (l p : List Char), containsSub p l = true ↔ Substr p l := by
  intro l
  induction l with
  | nil =>
    intro p
    simp only [containsSub, List.isEmpty_iff]
    constructor
    · rintro rfl
      exact ⟨[], [], rfl⟩
    · rintro ⟨u, v, huv⟩
      have h := huv.symm
      rw [List.append_eq_nil, List.append_eq_nil] at h
      exact h.1.2
  | cons b l ih =>
    intro p
    rw [containsSub, Bool.or_eq_true, isPre_iff, ih, substr_cons_iff]

lemma starts_append_split : ∀ (x : List Char) {y p w : List Char},
    x ++ y = p ++ w →
    (∃ w', x = p ++ w') ∨ (∃ q w', p = x ++ q ∧ y = q ++ w') := by
  intro x
  induction x with
  | nil =>
    intro y p w h
    exact Or.inr ⟨p, w, rfl, h⟩
  | cons c x' ih =>
    intro y p w h
    cases p with
    | nil => exact Or.inl ⟨c :: x', rfl⟩
    | cons d p' =>
      rw [List.cons_append, List.cons_append] at h
      injection h with h1 h2
      rcases ih h2 with ⟨w', hw⟩ | ⟨q, w', hq, hy⟩
      · exact Or.inl ⟨w', by rw [h1, List.cons_append, hw]⟩
      · exact Or.inr ⟨q, w', by rw [h1, List.cons_append, hq], hy⟩

lemma substr_append_split : ∀ (x : List Char) {y p : List Char},
    Substr p (x ++ y) →
    Substr p x ∨ Substr p y ∨
      ∃ p₁ p₂, p = p₁ ++ p₂ ∧ p₁ ≠ [] ∧ p₂ ≠ [] ∧
        (∃ u, x = u ++ p₁) ∧ (∃ v, y = p₂ ++ v) := by
  intro x
  induction x with
  | nil =>
    intro y p h
    exact Or.inr (Or.inl (by simpa using h))
  | cons c x' ih =>
    intro y p h
    rw [List.cons_append] at h
    rcases (substr_cons_iff p c (x' ++ y)).mp h with ⟨v, hv⟩ | hs
    · cases p with
      | nil => exact Or.inl ⟨[], c :: x', rfl⟩
      | cons d p' =>
        rw [List.cons_append] at hv
        injection hv with h1 h2
        rcases starts_append_split x' h2 with ⟨w', hw⟩ | ⟨q, w', hq, hy⟩
        · refine Or.inl ⟨[], w', ?_⟩
          rw [h1, hw]
          rfl
        · by_cases hq0 : q = []
          · subst hq0
            rw [List.append_nil] at hq
            refine Or.inl ⟨[], [], ?_⟩
            rw [h1, hq]
            simp
          · refine Or.inr (Or.inr ⟨c :: x', q, ?_, by simp, hq0, ⟨[], rfl⟩, ⟨w', hy⟩⟩)
            rw [h1, hq, List.cons_append]
    · rcases ih hs with h1 | h2 | ⟨p₁, p₂, hp, hp₁, hp₂, ⟨u, hu⟩, hv⟩
      · exact Or.inl (substr_cons_of c h1)
      · exact Or.inr (Or.inl h2)
      · exact Or.inr (Or.inr
          ⟨p₁, p₂, hp, hp₁, hp₂, ⟨c :: u, by rw [hu, List.cons_append]⟩, hv⟩)

lemma substr_filter (q : Char → Bool) {p l : List Char}
    (hp : ∀ c ∈ p, q c = true) (h : Substr p l) : Substr p (l.filter q) := by
  rcases h with ⟨u, v, rfl⟩
  refine ⟨u.filter q, v.filter q, ?_⟩
  rw [List.filter_append, List.filter_append, List.filter_eq_self.mpr hp]

lemma substr_ne_nil {p l : List Char} (hp : p ≠ []) (h : Substr p l) : l ≠ [] := by
  rcases h with ⟨u, v, rfl⟩
  simp only [ne_eq, List.append_eq_nil]
  tauto

/-! ### Structural lemmas about whitespace splitting -/

lemma splitWS_cons_ws {c : Char} (t : List Char) (hc : isWS c = true) :
    splitWS (c :: t) = splitWS t := by
  show ((c :: t).foldr splitStep []).filter _ = _
  rw [List.foldr_cons]
  rw [show splitStep c (t.foldr splitStep []) = [] :: t.foldr splitStep [] by
    simp [splitStep, hc]]
  rw [List.filter_cons]
  simp [splitWS]

lemma foldr_splitStep_struct : ∀ t : List Char,
    (t = [] ∧ t.foldr splitStep [] = []) ∨
    (∃ ws, t.foldr splitStep [] = t.takeWhile (fun c => !isWS c) :: ws ∧
      ws.filter (fun w => !w.isEmpty) = splitWS (t.dropWhile (fun c => !isWS c))) := by
  intro t
  induction t with
  | nil => exact Or.inl ⟨rfl, rfl⟩
  | cons c t ih =>
    by_cases hc : isWS c = true
    · refine Or.inr ⟨t.foldr splitStep [], ?_, ?_⟩
      · rw [List.foldr_cons,
          show splitStep c (t.foldr splitStep []) = [] :: t.foldr splitStep [] by
            simp [splitStep, hc],
          List.takeWhile_cons]
        simp [hc]
      · rw [List.dropWhile_cons]
        simp only [hc, Bool.not_true]
        rw [if_neg (by simp)]
        rw [splitWS_cons_ws t hc]
        rfl
    · have hc' : isWS c = false := by
        cases h : isWS c
        · rfl
        · exact absurd h hc
      rcases ih with ⟨rfl, hF⟩ | ⟨ws, hF, hws⟩
      · refine Or.inr ⟨[], ?_, ?_⟩
        · simp [splitStep, hc']
        · simp [List.dropWhile_cons, hc', splitWS]
      · refine Or.inr ⟨ws, ?_, ?_⟩
        · rw [List.foldr_cons, hF]
          rw [show splitStep c (t.takeWhile (fun c => !isWS c) :: ws) =
              (c :: t.takeWhile (fun c => !isWS c)) :: ws by
            simp [splitStep, hc']]
          rw [List.takeWhile_cons]
          simp [hc']
        · rw [List.dropWhile_cons]
          simp only [hc', Bool.not_false, if_pos]
          exact hws

lemma splitWS_cons_nws {c : Char} (t : List Char) (hc : isWS c = false) :
    splitWS (c :: t) =
      (c :: t.takeWhile (fun d => !isWS d)) :: splitWS (t.dropWhile (fun d => !isWS d)) := by
  rcases foldr_splitStep_struct t with ⟨rfl, hF⟩ | ⟨ws, hF, hws⟩
  · simp [splitWS, splitStep, hc]
  · show ((c :: t).foldr splitStep []).filter _ = _
    rw [List.foldr_cons, hF]
    rw [show splitStep c (t.takeWhile (fun c => !isWS c) :: ws) =
        (c :: t.takeWhile (fun c => !isWS c)) :: ws by
      simp [splitStep, hc]]
    rw [List.filter_cons]
    simp only [List.isEmpty_cons, Bool.not_false, if_pos]
    rw [hws]

lemma takeWhile_append_all (p : Char → Bool) :
    ∀ (x y : List Char), (∀ c ∈ x, p c = true) →
      (x ++ y).takeWhile p = x ++ y.takeWhile p := by
  intro x y
  induction x with
  | nil => intro _; rfl
  | cons c x' ih =>
    intro h
    rw [List.cons_append, List.takeWhile_cons, if_pos (h c (by simp)),
      List.cons_append, ih (fun d hd => h d (by simp [hd]))]

lemma dropWhile_append_all (p : Char → Bool) :
    ∀ (x y : List Char), (∀ c ∈ x, p c = true) →
      (x ++ y).dropWhile p = y.dropWhile p := by
  intro x y
  induction x with
  | nil => intro _; rfl
  | cons c x' ih =>
    intro h
    rw [List.cons_append, List.dropWhile_cons, if_pos (h c (by simp))]
    exact ih (fun d hd => h d (by simp [hd]))

lemma lenDropWhile_le (p : Char → Bool) :
    ∀ l : List Char, (l.dropWhile p).length ≤ l.length := by
  intro l
  induction l with
  | nil => simp
  | cons c l ih =>
    rw [List.dropWhile_cons]
    split
    · exact Nat.le_succ_of_le ih
    · simp

lemma dropWhile_head_false (p : Char → Bool) :
    ∀ (l : List Char) {d : Char} {r : List Char},
      l.dropWhile p = d :: r → p d = false := by
  intro l
  induction l with
  | nil => intro d r h; simp at h
  | cons c l ih =>
    intro d r h
    rw [List.dropWhile_cons] at h
    by_cases hp : p c = true
    · rw [if_pos hp] at h
      exact ih h
    · rw [if_neg hp] at h
      injection h with h1 _
      subst h1
      cases hpc : p c
      · rfl
      · exact absurd hpc hp

lemma splitWS_append_chunk :
    ∀ (x y : List Char), (∀ c ∈ x, isWS c = false) →
      (y = [] ∨ ∃ d y', y = d :: y' ∧ isWS d = true) →
      splitWS (x ++ y) = if x.isEmpty then splitWS y else x :: splitWS y := by
  intro x y hx hy
  cases x with
  | nil => simp
  | cons c x' =>
    have hc : isWS c = false := hx c (by simp)
    rw [List.cons_append, splitWS_cons_nws _ hc]
    have hx' : ∀ d ∈ x', (fun d => !isWS d) d = true :=
      fun d hd => by simp [hx d (by simp [hd])]
    rw [takeWhile_append_all _ x' y hx', dropWhile_append_all _ x' y hx']
    have hyt : y.takeWhile (fun d => !isWS d) = [] := by
      rcases hy with rfl | ⟨d, y', rfl, hd⟩
      · rfl
      · simp [List.takeWhile_cons, hd]
    have hyd : y.dropWhile (fun d => !isWS d) = y := by
      rcases hy with rfl | ⟨d, y', rfl, hd⟩
      · rfl
      · simp [List.dropWhile_cons, hd]
    rw [hyt, hyd, List.append_nil]
    simp

lemma splitWS_filter_aux (q : Char → Bool) (hq : ∀ c, isWS c = true → q c = true) :
    ∀ n (s : List Char), s.length ≤ n →
      splitWS (s.filter q) =
        ((splitWS s).map (fun w => w.filter q)).filter (fun w => !w.isEmpty) := by
  intro n
  induction n with
  | zero =>
    intro s hs
    have hnil : s = [] := List.length_eq_zero.mp (Nat.le_zero.mp hs)
    subst hnil
    rfl
  | succ n ih =>
    intro s hs
    cases s with
    | nil => rfl
    | cons c s' =>
      by_cases hc : isWS c = true
      · rw [List.filter_cons_of_pos (hq c hc), splitWS_cons_ws _ hc,
          splitWS_cons_ws s' hc]
        exact ih s' (Nat.le_of_succ_le_succ hs)
      · have hc' : isWS c = false := by
          cases h : isWS c
          · rfl
          · exact absurd h hc
        have hsplit : c :: s' =
            (c :: s'.takeWhile (fun d => !isWS d)) ++ s'.dropWhile (fun d => !isWS d) := by
          rw [List.cons_append, List.takeWhile_append_dropWhile]
        have hxall : ∀ d ∈ (c :: s'.takeWhile (fun d => !isWS d)).filter q,
            isWS d = false := by
          intro d hd
          rcases List.mem_filter.mp hd with ⟨hd', _⟩
          rcases List.mem_cons.mp hd' with rfl | hmem
          · exact hc'
          · have := List.mem_takeWhile_imp hmem
            simpa using this
        have hyshape : (s'.dropWhile (fun d => !isWS d)).filter q = [] ∨
            ∃ d y', (s'.dropWhile (fun d => !isWS d)).filter q = d :: y' ∧ isWS d = true := by
          cases hdrop : s'.dropWhile (fun d => !isWS d) with
          | nil => exact Or.inl rfl
          | cons d r =>
            have hdws : isWS d = true := by
              have := dropWhile_head_false (fun d => !isWS d) s' hdrop
              simpa using this
            rw [List.filter_cons_of_pos (hq d hdws)]
            exact Or.inr ⟨d, r.filter q, rfl, hdws⟩
        have hdl : (s'.dropWhile (fun d => !isWS d)).length ≤ n :=
          Nat.le_trans (lenDropWhile_le _ s') (Nat.le_of_succ_le_succ hs)
        have hLHS : splitWS ((c :: s').filter q) =
            if ((c :: s'.takeWhile (fun d => !isWS d)).filter q).isEmpty = true
            then splitWS ((s'.dropWhile (fun d => !isWS d)).filter q)
            else ((c :: s'.takeWhile (fun d => !isWS d)).filter q) ::
              splitWS ((s'.dropWhile (fun d => !isWS d)).filter q) := by
          conv_lhs => rw [hsplit]
          rw [List.filter_append]
          exact splitWS_append_chunk _ _ hxall hyshape
        have hRHS : ((splitWS (c :: s')).map (fun w => w.filter q)).filter
              (fun w => !w.isEmpty) =
            if ((c :: s'.takeWhile (fun d => !isWS d)).filter q).isEmpty = true
            then ((splitWS (s'.dropWhile (fun d => !isWS d))).map
              (fun w => w.filter q)).filter (fun w => !w.isEmpty)
            else ((c :: s'.takeWhile (fun d => !isWS d)).filter q) ::
              ((splitWS (s'.dropWhile (fun d => !isWS d))).map
                (fun w => w.filter q)).filter (fun w => !w.isEmpty) := by
          rw [splitWS_cons_nws s' hc', List.map_cons, List.filter_cons]
          by_cases hfx : ((c :: s'.takeWhile (fun d => !isWS d)).filter q).isEmpty = true
          · rw [if_pos hfx, if_neg (by simp [hfx])]
          · rw [if_neg hfx, if_pos (by simp [Bool.not_eq_true] at hfx ⊢; exact hfx)]
        rw [hLHS, hRHS, ih (s'.dropWhile (fun d => !isWS d)) hdl]

lemma splitWS_filter (q : Char → Bool) (hq : ∀ c, isWS c = true → q c = true)
    (s : List Char) :
    splitWS (s.filter q) =
      ((splitWS s).map (fun w => w.filter q)).filter (fun w => !w.isEmpty) :=
  splitWS_filter_aux q hq s.length s le_rfl

lemma substr_splitWS_aux :
    ∀ n (t p : List Char), t.length ≤ n → p ≠ [] →
      (∀ c ∈ p, isWS c = false) → Substr p t → ∃ w ∈ splitWS t, Substr p w := by
  intro n
  induction n with
  | zero =>
    intro t p ht hp _ hsub
    have hnil : t = [] := List.length_eq_zero.mp (Nat.le_zero.mp ht)
    subst hnil
    rcases hsub with ⟨u, v, huv⟩
    have h := huv.symm
    rw [List.append_eq_nil, List.append_eq_nil] at h
    exact absurd h.1.2 hp
  | succ n ih =>
    intro t p ht hp hpws hsub
    cases t with
    | nil =>
      rcases hsub with ⟨u, v, huv⟩
      have h := huv.symm
      rw [List.append_eq_nil, List.append_eq_nil] at h
      exact absurd h.1.2 hp
    | cons c t' =>
      by_cases hc : isWS c = true
      · have hsub' : Substr p ([c] ++ t') := by simpa using hsub
        rcases substr_append_split [c] hsub' with h1 | h2 | ⟨p₁, p₂, hpe, hp₁, hp₂, ⟨u, hu⟩, _⟩
        · rcases h1 with ⟨u, v, huv⟩
          cases p with
          | nil => exact absurd rfl hp
          | cons d p' =>
            have hd : d ∈ ([c] : List Char) := by
              rw [huv]
              simp
            have : d = c := by simpa using hd
            subst this
            exact absurd hc (by simp [hpws d (by simp)])
        · rcases ih t' p (Nat.le_of_succ_le_succ ht) hp hpws h2 with ⟨w, hw, hsw⟩
          exact ⟨w, by rw [splitWS_cons_ws t' hc]; exact hw, hsw⟩
        · cases u with
          | nil =>
            simp only [List.nil_append] at hu
            have hcp : c ∈ p := by
              rw [hpe, ← hu]
              simp
            exact absurd hc (by simp [hpws c hcp])
          | cons e u' =>
            rw [List.cons_append] at hu
            injection hu with _ h2
            have := List.append_eq_nil.mp h2.symm
            exact absurd this.2 hp₁
      · have hc' : isWS c = false := by
          cases h : isWS c
          · rfl
          · exact absurd h hc
        have hsplit : c :: t' =
            (c :: t'.takeWhile (fun d => !isWS d)) ++ t'.dropWhile (fun d => !isWS d) := by
          rw [List.cons_append, List.takeWhile_append_dropWhile]
        rw [hsplit] at hsub
        rw [splitWS_cons_nws t' hc']
        rcases substr_append_split (c :: t'.takeWhile (fun d => !isWS d)) hsub with
          h1 | h2 | ⟨p₁, p₂, hpe, hp₁, hp₂, _, ⟨v, hv⟩⟩
        · exact ⟨c :: t'.takeWhile (fun d => !isWS d), by simp, h1⟩
        · have hlen : (t'.dropWhile (fun d => !isWS d)).length ≤ n :=
            Nat.le_trans (lenDropWhile_le _ t') (Nat.le_of_succ_le_succ ht)
          rcases ih _ p hlen hp hpws h2 with ⟨w, hw, hsw⟩
          exact ⟨w, by simp [hw], hsw⟩
        · cases p₂ with
          | nil => exact absurd rfl hp₂
          | cons d p₂' =>
            rw [List.cons_append] at hv
            have hdws := dropWhile_head_false (fun d => !isWS d) t' hv
            have hdmem : d ∈ p := by
              rw [hpe]
              simp
            have := hpws d hdmem
            simp [this] at hdws

/-! ### Punctuation removal and the word sets -/

lemma removePunct_eq_filter : ∀ l : List Char,
    removePunct l = l.filter (fun c => !isPunct c) := by
  intro l
  unfold removePunct pyRemove
  rw [List.filter_filter, List.filter_filter, List.filter_filter]
  refine List.filter_congr ?_
  intro c _
  cases h1 : c == ',' <;> cases h2 : c == '.' <;> cases h3 : c == '!' <;>
    cases h4 : c == '?' <;> simp [isPunct, h1, h2, h3, h4]

lemma ws_not_punct (c : Char) (hc : isWS c = true) : isPunct c = false := by
  simp only [isWS, Bool.or_eq_true, beq_iff_eq] at hc
  rcases hc with ((((rfl | rfl) | rfl) | rfl) | rfl) | rfl <;> decide

lemma command_words_wf : ∀ cmd ∈ COMMAND_WORDS,
    cmd ≠ [] ∧ (∀ c ∈ cmd, isWS c = false) ∧ (∀ c ∈ cmd, isPunct c = false) := by
  decide

lemma command_not_substr_backchannel :
    ∀ c ∈ COMMAND_WORDS, ∀ b ∈ BACKCHANNEL_WORDS, containsSub c b = false := by
  decide

lemma command_not_mem_backchannel : ∀ c ∈ COMMAND_WORDS, c ∉ BACKCHANNEL_WORDS := by
  decide

/-- Central lemma behind the backchannel-acceptance law: if every token of
`t` (after punctuation removal and splitting) is a backchannel word, then no
command word occurs as a substring of `t`, because a whitespace-free,
punctuation-free substring occurrence must land inside the punctuation-
stripped form of a single whitespace chunk, i.e. inside a backchannel word,
and no command word is a substring of any backchannel word. -/
lemma no_command_substr (t : List Char)
    (hall : ∀ w ∈ splitWS (removePunct t), w ∈ BACKCHANNEL_WORDS) :
    ∀ cmd ∈ COMMAND_WORDS, containsSub cmd t = false := by
  intro cmd hcmd
  cases hcs : containsSub cmd t
  · rfl
  · exfalso
    have hsub : Substr cmd t := (containsSub_iff t cmd).mp hcs
    obtain ⟨hne, hws, hpunct⟩ := command_words_wf cmd hcmd
    obtain ⟨w, hw, hsw⟩ := substr_splitWS_aux t.length t cmd le_rfl hne hws hsub
    have hq : ∀ c ∈ cmd, (fun c => !isPunct c) c = true := fun c hc => by
      simp [hpunct c hc]
    have hsw' : Substr cmd (w.filter (fun c => !isPunct c)) :=
      substr_filter _ hq hsw
    have hwne : w.filter (fun c => !isPunct c) ≠ [] := substr_ne_nil hne hsw'
    have hmem : w.filter (fun c => !isPunct c) ∈ splitWS (removePunct t) := by
      rw [removePunct_eq_filter,
        splitWS_filter _ (fun c hc => by simp [ws_not_punct c hc])]
      refine List.mem_filter.mpr ⟨List.mem_map.mpr ⟨w, hw, rfl⟩, ?_⟩
      have hie : (w.filter (fun c => !isPunct c)).isEmpty = false := by
        cases hie : (w.filter (fun c => !isPunct c)).isEmpty
        · rfl
        · exact absurd (List.isEmpty_iff.mp hie) hwne
      rw [hie]
      rfl
    have hb : w.filter (fun c => !isPunct c) ∈ BACKCHANNEL_WORDS := hall _ hmem
    have htrue : containsSub cmd (w.filter (fun c => !isPunct c)) = true :=
      (containsSub_iff _ _).mpr hsw'
    rw [command_not_substr_backchannel cmd hcmd _ hb] at htrue
    exact Bool.false_ne_true htrue

lemma lowerChar_ws {c : Char} (hc : isWS c = true) : lowerChar c = c := by
  simp only [isWS, Bool.or_eq_true, beq_iff_eq] at hc
  rcases hc with ((((rfl | rfl) | rfl) | rfl) | rfl) | rfl <;> decide

lemma strip_all_ws {l : List Char} (h : ∀ c ∈ l, isWS c = true) : strip l = [] := by
  unfold strip
  rw [List.dropWhile_eq_nil_iff.mpr (fun c hc => h c hc)]
  rfl

lemma is_backchannel_only_eq (text : List Char) :
    is_backchannel_only text =
      if text.isEmpty then false
      else if COMMAND_WORDS.any
          (fun cmd => containsSub cmd (strip (text.map lowerChar))) then false
      else if (normalizeText text).isEmpty then false
      else (normalizeText text).all (fun w => memB w BACKCHANNEL_WORDS) := rfl

lemma st_fst (log : List DebugRec) (text : List Char) :
    (is_backchannel_only_st log text).1 = is_backchannel_only text := by
  by_cases h1 : text.isEmpty = true
  · simp [is_backchannel_only_st, is_backchannel_only, h1]
  · by_cases h2 : COMMAND_WORDS.any
        (fun cmd => containsSub cmd (strip (text.map lowerChar))) = true
    · simp [is_backchannel_only_st, is_backchannel_only, h1, h2]
    · by_cases h3 : (splitWS (removePunct (strip (text.map lowerChar)))).isEmpty = true
      · simp [is_backchannel_only_st, is_backchannel_only, h1, h2, h3]
      · simp [is_backchannel_only_st, is_backchannel_only, h1, h2, h3]

/-! ### Claims about the classifier -/

/-- C1: for every non-empty token sequence in which every token is a member
of the backchannel set, the classifier returns the backchannel-only verdict:
`is_backchannel_only` returns `true` for any text whose whitespace-split,
punctuation-stripped tokens are all backchannel words. -/
theorem C1_all_backchannel_tokens_accepted (s : List Char)
    (hne : normalizeText s ≠ [])
    (hall : ∀ w ∈ normalizeText s, w ∈ BACKCHANNEL_WORDS) :
    is_backchannel_only s = true := by
  rw [is_backchannel_only_eq]
  have hsne : s.isEmpty = false := by
    cases hs : s.isEmpty
    · rfl
    · exact absurd (by rw [List.isEmpty_iff.mp hs]; rfl) hne
  have hcmd : COMMAND_WORDS.any
      (fun cmd => containsSub cmd (strip (s.map lowerChar))) = false := by
    cases hany : COMMAND_WORDS.any
        (fun cmd => containsSub cmd (strip (s.map lowerChar)))
    · rfl
    · exfalso
      obtain ⟨cmd, hmem, hc⟩ := List.any_eq_true.mp hany
      have hz := no_command_substr (strip (s.map lowerChar)) hall cmd hmem
      rw [hz] at hc
      exact Bool.false_ne_true hc
  have hwne : (normalizeText s).isEmpty = false := by
    cases hs : (normalizeText s).isEmpty
    · rfl
    · exact absurd (List.isEmpty_iff.mp hs) hne
  rw [hsne, hcmd, hwne]
  simp only [Bool.false_eq_true, if_false]
  rw [List.all_eq_true]
  intro w hw
  rw [memB_iff]
  exact hall w hw

/-- Witness for C1 at the concrete input "yeah ok". -/
theorem C1_witness : is_backchannel_only ("yeah ok".toList) = true :=
  C1_all_backchannel_tokens_accepted ("yeah ok".toList) (by decide) (by decide)

/-- C2: command precedence is absolute; for every text one of whose tokens
is a member of the command set, the classifier returns `false`, regardless
of how many backchannel tokens are also present. -/
theorem C2_command_token_rejects (s : List Char)
    (h : ∃ w ∈ normalizeText s, w ∈ COMMAND_WORDS) :
    is_backchannel_only s = false := by
  obtain ⟨w, hw, hwc⟩ := h
  rw [is_backchannel_only_eq]
  split
  · rfl
  · split
    · rfl
    · split
      · rfl
      · cases hall : (normalizeText s).all (fun w => memB w BACKCHANNEL_WORDS)
        · rfl
        · exfalso
          have hmem := List.all_eq_true.mp hall w hw
          rw [memB_iff] at hmem
          exact command_not_mem_backchannel w hwc hmem

/-- Witness for C2 at the concrete input "yeah wait yeah". -/
theorem C2_witness : is_backchannel_only ("yeah wait yeah".toList) = false :=
  C2_command_token_rejects ("yeah wait yeah".toList)
    ⟨"wait".toList, by decide, by decide⟩

/-- C3: only unanimous backchannel membership suppresses an interruption;
whenever the classifier returns `true`, the token sequence is non-empty and
every token is a backchannel word, so silence and mixed content never yield
the suppressing verdict. -/
theorem C3_true_only_if_unanimous_backchannel (s : List Char)
    (h : is_backchannel_only s = true) :
    normalizeText s ≠ [] ∧ ∀ w ∈ normalizeText s, w ∈ BACKCHANNEL_WORDS := by
  rw [is_backchannel_only_eq] at h
  split at h
  · exact absurd h Bool.false_ne_true
  · split at h
    · exact absurd h Bool.false_ne_true
    · split at h
      · exact absurd h Bool.false_ne_true
      · rename_i h1 h2 h3
        refine ⟨?_, ?_⟩
        · intro hnil
          exact h3 (by rw [hnil]; rfl)
        · intro w hw
          rw [← memB_iff]
          exact List.all_eq_true.mp h w hw

/-- Witness for C3 at the concrete input "yeah". -/
theorem C3_witness :
    normalizeText ("yeah".toList) ≠ [] ∧
    ∀ w ∈ normalizeText ("yeah".toList), w ∈ BACKCHANNEL_WORDS :=
  C3_true_only_if_unanimous_backchannel ("yeah".toList) (by decide)

/-- C10: command detection is a substring test on the raw lowered, stripped
text, before punctuation removal: if any configured command word occurs
anywhere as a contiguous substring (also inside a longer word), the
classifier returns `false`. -/
theorem C10_command_substring_test (s cmd : List Char)
    (hmem : cmd ∈ COMMAND_WORDS)
    (hsub : containsSub cmd (strip (s.map lowerChar)) = true) :
    is_backchannel_only s = false := by
  rw [is_backchannel_only_eq]
  split
  · rfl
  · split
    · rfl
    · rename_i h1 h2
      exact absurd (List.any_eq_true.mpr ⟨cmd, hmem, hsub⟩) h2

/-- Witness for C10: "wait" occurs inside "waiting", which contains no
command token, yet the classifier rejects it. -/
theorem C10_witness : is_backchannel_only ("waiting".toList) = false :=
  C10_command_substring_test ("waiting".toList) ("wait".toList)
    (by decide) (by decide)

/-- C4: empty or whitespace-only transcript text normalizes to an empty
token sequence, the spec-modelled classifier gives it the distinct `Empty`
verdict, and the spec-modelled arbiter treats it as no interruption signal,
leaving its state unchanged and issuing no command in any state. -/
theorem C4_empty_input_no_signal (s : List Char) (cfg : ArbConfig) (a : Arb)
    (h : ∀ c ∈ s, isWS c = true) :
    normalizeText s = [] ∧
    classify (normalizeText s) cfg.backchannel cfg.command =
      ClassificationVerdict.Empty ∧
    arbStep cfg a (ArbEvent.utterance s) = (a, []) := by
  have hmap : ∀ c ∈ s.map lowerChar, isWS c = true := by
    intro c hc
    rcases List.mem_map.mp hc with ⟨d, hd, rfl⟩
    rw [lowerChar_ws (h d hd)]
    exact h d hd
  have hstrip : strip (s.map lowerChar) = [] := strip_all_ws hmap
  have hnorm : normalizeText s = [] := by
    unfold normalizeText
    rw [hstrip]
    rfl
  refine ⟨hnorm, by rw [hnorm]; rfl, ?_⟩
  obtain ⟨st, g⟩ := a
  cases st with
  | Idle => rfl
  | AgentSpeaking => simp [arbStep, hnorm, classify]
  | Interrupted => rfl
  | PendingResume g' => simp [arbStep, hnorm]

/-- Witness for C4 at the whitespace-only input " " in state AgentSpeaking. -/
theorem C4_witness :
    normalizeText (" ".toList) = [] ∧
    classify (normalizeText (" ".toList)) defaultArbConfig.backchannel
      defaultArbConfig.command = ClassificationVerdict.Empty ∧
    arbStep defaultArbConfig ⟨ArbState.AgentSpeaking, 0⟩
      (ArbEvent.utterance (" ".toList)) = (⟨ArbState.AgentSpeaking, 0⟩, []) :=
  C4_empty_input_no_signal (" ".toList) defaultArbConfig
    ⟨ArbState.AgentSpeaking, 0⟩ (by decide)

/-- C6: classification is case-insensitive; the verdict on a text equals the
verdict on any case variant of the same text, i.e. any text with the same
character-wise lowercasing, because normalization lowercases before any set
membership test. -/
theorem C6_case_insensitive (s t : List Char)
    (h : s.map lowerChar = t.map lowerChar) :
    is_backchannel_only s = is_backchannel_only t := by
  have hlen : s.length = t.length := by
    have hc := congrArg List.length h
    simpa using hc
  cases s with
  | nil =>
    cases t with
    | nil => rfl
    | cons b t' => simp at hlen
  | cons a s' =>
    cases t with
    | nil => simp at hlen
    | cons b t' =>
      simp only [is_backchannel_only_eq, normalizeText, h, List.isEmpty_cons]

/-- Witness for C6: the all-uppercase form of "yeah ok" classifies the same. -/
theorem C6_witness :
    is_backchannel_only ("YEAH OK".toList) = is_backchannel_only ("yeah ok".toList) :=
  C6_case_insensitive ("YEAH OK".toList) ("yeah ok".toList) (by decide)

/-- C7: the classifier is deterministic and stateless: its verdict does not
depend on the diagnostic stream state, two successive runs on the same text
(the second starting from the log produced by the first) agree, the
state-passing embedding agrees with the pure classifier, and the verdict is
a function of the text and the two configured word sets, instantiated at the
module-level sets. -/
theorem C7_deterministic_stateless :
    (∀ (text : List Char) (log₁ log₂ : List DebugRec),
      (is_backchannel_only_st log₁ text).1 = (is_backchannel_only_st log₂ text).1) ∧
    (∀ (text : List Char) (log : List DebugRec),
      (is_backchannel_only_st log text).1 = is_backchannel_only text ∧
      (is_backchannel_only_st (is_backchannel_only_st log text).2 text).1 =
        (is_backchannel_only_st log text).1) ∧
    (∀ text : List Char,
      is_backchannel_only text =
        is_backchannel_only_with BACKCHANNEL_WORDS COMMAND_WORDS text) := by
  refine ⟨?_, ?_, ?_⟩
  · intro text log₁ log₂
    rw [st_fst, st_fst]
  · intro text log
    refine ⟨st_fst log text, ?_⟩
    rw [st_fst, st_fst]
  · intro text
    rfl

/-- C8: the spec's concrete scenario.  Against the source classifier, the
scenario inputs give True, False, False and False respectively, and against
the spec-modelled verdict classifier with the scenario sets
backchannel = {yeah, ok, mhm} and command = {wait, stop}, the verdicts are
BackchannelOnly, ContainsCommand, Empty and Mixed. -/
theorem C8_concrete_scenario :
    is_backchannel_only ("yeah yeah ok".toList) = true ∧
    is_backchannel_only ("ok but wait".toList) = false ∧
    is_backchannel_only ("".toList) = false ∧
    is_backchannel_only ("sure thats great".toList) = false ∧
    classify (normalizeText ("yeah yeah ok".toList))
      ["yeah".toList, "ok".toList, "mhm".toList]
      ["wait".toList, "stop".toList] = ClassificationVerdict.BackchannelOnly ∧
    classify (normalizeText ("ok but wait".toList))
      ["yeah".toList, "ok".toList, "mhm".toList]
      ["wait".toList, "stop".toList] = ClassificationVerdict.ContainsCommand ∧
    classify (normalizeText ("".toList))
      ["yeah".toList, "ok".toList, "mhm".toList]
      ["wait".toList, "stop".toList] = ClassificationVerdict.Empty ∧
    classify (normalizeText ("sure thats great".toList))
      ["yeah".toList, "ok".toList, "mhm".toList]
      ["wait".toList, "stop".toList] = ClassificationVerdict.Mixed := by
  decide

/-- C5 counterexample: the claim says internal punctuated forms such as
"don't" collapse to the single token "dont"; in the code the apostrophe is
not among the removed marks, so the token stays "don't" and is not "dont"
(the apostrophe is written as character 39). -/
theorem C5_counterexample :
    normalizeText (['d', 'o', 'n', Char.ofNat 39, 't']) ≠ [['d', 'o', 'n', 't']] := by
  decide

/-- C5 amended: the normalizer deletes exactly the four marks comma, period,
exclamation mark and question mark in place (chained single-character
replacement by the empty string equals one-pass deletion, with nothing
replaced by whitespace, so "o,k" collapses to the single token "ok"),
lowercases and splits on whitespace; the apostrophe is kept, so "don't"
yields the token "don't", not "dont". -/
theorem C5_amended_normalizer :
    (∀ l : List Char, removePunct l = l.filter (fun c => !isPunct c)) ∧
    normalizeText ("o,k".toList) = ["ok".toList] ∧
    normalizeText ("Yeah, OK!".toList) = ["yeah".toList, "ok".toList] ∧
    normalizeText (['d', 'o', 'n', Char.ofNat 39, 't']) =
      [['d', 'o', 'n', Char.ofNat 39, 't']] :=
  ⟨removePunct_eq_filter, by decide, by decide, by decide⟩

/-- C9: from Interrupted, a revisedToNonActionable event moves the
spec-modelled arbiter to PendingResume with a fresh timer generation, and if
no utterance arrives before the timer for that generation fires, resume() is
issued exactly once and the state becomes AgentSpeaking; the configured
default resume timeout is 1.0 time units as set in basic_agent.py. -/
theorem C9_pending_resume_timeout (cfg : ArbConfig) (g : Nat) :
    (arbStep cfg ⟨ArbState.Interrupted, g⟩ ArbEvent.revisedToNonActionable) =
      (⟨ArbState.PendingResume (g + 1), g + 1⟩, []) ∧
    arbRun cfg ⟨ArbState.Interrupted, g⟩
      [ArbEvent.revisedToNonActionable, ArbEvent.timerFire (g + 1)] =
      (⟨ArbState.AgentSpeaking, g + 1⟩, [ArbCmd.resume]) ∧
    (arbRun cfg ⟨ArbState.Interrupted, g⟩
      [ArbEvent.revisedToNonActionable, ArbEvent.timerFire (g + 1)]).2.count
        ArbCmd.resume = 1 ∧
    defaultArbConfig.resumeTimeout = 1 := by
  refine ⟨rfl, ?_, ?_, rfl⟩
  · simp [arbRun, arbStep]
  · simp [arbRun, arbStep]
